import Mathlib

/-!
Verification of the FP-growth association-rule miner
(`src/fpgrowth/src/main.rs`).

The Rust code builds a prefix tree (`FPTree`) of `FPNode`s connected by
parent pointers, child maps and per-item occurrence chains, then mines it
recursively (`fp_growth`) and post-processes the frequent itemsets into
association rules (`generate_rules`).

Shallow embedding choices:
* A node is identified by its path from the root (paths are unique keys in
  a prefix tree, mirroring `children: HashMap<char, node>`).  `FPTree.nodes`
  keeps the nodes in creation order; since the Rust code appends every new
  node at the tail of its item's occurrence chain, the occurrence chain of
  an item is exactly the creation-ordered sublist of nodes carrying it.
* The `unwrap` on `header_table.get_mut` inside `add_transaction` is a
  possible panic, so tree construction returns `Option` (`none` = panic).
* `fp_growth` recursion is driven by a fuel parameter (the Rust recursion
  terminates because conditional trees are strictly shallower); exhausted
  fuel yields `some []`, so `none` still means exactly "a panic happened".
* Rust iterates `HashMap`s in a nondeterministic order when it collects and
  sorts the header items of each recursion level; this is modelled by an
  oracle `ord` that the miner applies to the header list at every level
  (keyed by the unique prefix of the level).  A faithful oracle returns a
  permutation of its input; `ordCanon` is one concrete resolution.
* `f64` support fractions and confidences are modelled exactly over `ℚ`;
  at every concrete input used below the `f64` arithmetic of the program
  (`0.4 * 10.0`, `0.125 * 8.0`, small integer ratios) is exact, so the
  rational model agrees with the floating-point computation.
-/

namespace FPGrowth

abbrev Item := Char

/-- An FP-tree: `nodes` lists `(path from root, count)` for every non-root
node in creation order; `header` is the header table as an association list
`(item, support)`.  Mirrors `struct FPTree { root, header_table }` with
nodes keyed by their root path. -/
structure FPTree where
  nodes : List (List Item × Nat)
  header : List (Item × Nat)
deriving DecidableEq

/-- Association-list lookup (first match), as `HashMap::get`. -/
def lookupA {α β : Type} [DecidableEq α] : List (α × β) → α → Option β
  | [], _ => none
  | (k, v) :: t, x => if k = x then some v else lookupA t x

/-- `*counts.entry(item).or_insert(0) += w`: bump an existing key or append
a fresh one. -/
def bumpA {α : Type} [DecidableEq α] : List (α × Nat) → α → Nat → List (α × Nat)
  | [], x, w => [(x, w)]
  | (k, v) :: t, x, w => if k = x then (k, v + w) :: t else (k, v) :: bumpA t x w

/-- Increment the count of the node at path `p` (`FPNode::increment`). -/
def incNode : List (List Item × Nat) → List Item → Nat → List (List Item × Nat)
  | [], _, _ => []
  | (q, c) :: t, p, w => if q = p then (q, c + w) :: t else (q, c) :: incNode t p w

/-- One step per transaction item of `FPTree::add_transaction`: reuse the
child if it exists, otherwise create it (count `w` after the increment) —
which first looks the item up in the header table and panics (`unwrap`) if
it is absent.  `cur` is the path of `current_node`. -/
def addTransactionGo : FPTree → List Item → List Item → Nat → Option FPTree
  | t, _, [], _ => some t
  | t, cur, it :: rest, w =>
    let p := cur ++ [it]
    match lookupA t.nodes p with
    | some _ => addTransactionGo ⟨incNode t.nodes p w, t.header⟩ p rest w
    | none =>
      match lookupA t.header it with
      | some _ => addTransactionGo ⟨t.nodes ++ [(p, w)], t.header⟩ p rest w
      | none => none

/-- `FPTree::add_transaction(transaction, count)`. -/
def addTransaction (t : FPTree) (items : List Item) (w : Nat) : Option FPTree :=
  addTransactionGo t [] items w

/-- Per-item weighted counting over a path
(`for item in path { *counts.entry(*item).or_insert(0) += count }`). -/
def pathCounts (acc : List (Item × Nat)) (path : List Item) (w : Nat) :
    List (Item × Nat) :=
  path.foldl (fun a it => bumpA a it w) acc

/-- Weighted item counts of a whole database of `(path, weight)` pairs;
with all weights 1 this is `build`'s `item_counts`, and on a conditional
pattern base it is `conditional_item_counts`. -/
def dbCounts (db : List (List Item × Nat)) : List (Item × Nat) :=
  db.foldl (fun acc pw => pathCounts acc pw.1 pw.2) []

/-- Stable sort descending by support, modelling
`filtered.sort_by(|a, b| b.1.cmp(&a.1))`: Rust's `sort_by` is stable and
compares only the support component, and any two stable sorts under the
same key function produce the same list. -/
def sortDescBySupport (l : List (Item × Nat)) : List (Item × Nat) :=
  List.insertionSort (fun a b => b.2 ≤ a.2) l

/-- The per-transaction body shared by `FPTree::build` and the
conditional-tree construction inside `fp_growth`: keep the items present in
the header table (paired with their header support), stable-sort them by
descending support, and insert the non-empty results with their weight. -/
def insertPaths : FPTree → List (List Item × Nat) → Option FPTree
  | t, [] => some t
  | t, (path, w) :: rest =>
    let filtered := path.filterMap (fun it => (lookupA t.header it).map (fun s => (it, s)))
    let sorted := sortDescBySupport filtered
    if sorted.isEmpty then insertPaths t rest
    else
      match addTransaction t (sorted.map (fun p => p.1)) w with
      | some t2 => insertPaths t2 rest
      | none => none

/-- Build a tree from a weighted database: count items, keep those meeting
`ms` as the header table, then insert every weighted path.  `FPTree::build`
is this with all weights 1, and the conditional-tree construction in
`fp_growth` (counting, header filtering, filtered/sorted insertion) is
exactly this on the conditional pattern base. -/
def buildWeighted (db : List (List Item × Nat)) (ms : Nat) : Option FPTree :=
  insertPaths ⟨[], (dbCounts db).filter (fun p => ms ≤ p.2)⟩ db

/-- `FPTree::build(transactions, min_support)`. -/
def build (transactions : List (List Item)) (ms : Nat) : Option FPTree :=
  buildWeighted (transactions.map (fun tr => (tr, 1))) ms

/-- The occurrence chain of `x`: all nodes carrying item `x`, in creation
order (the Rust code appends each new node at the tail of its item's
`node_link` chain, so chain order is creation order). -/
def chain (t : FPTree) (x : Item) : List (List Item × Nat) :=
  t.nodes.filter (fun n => decide (n.1.getLast? = some x))

/-- The parent-pointer walk of `fp_growth`: starting from the ancestor with
path `q`, push each ancestor's item (deepest first) until the itemless root
is reached.  Structured on a length fuel so that it mirrors the loop
unfolding step by step. -/
def walkUpAux : Nat → List Item → List Item
  | 0, _ => []
  | n + 1, q =>
    match q.getLast? with
    | none => []
    | some a => a :: walkUpAux n q.dropLast

/-- Items collected by the parent walk from the node whose path is `q`. -/
def walkUp (q : List Item) : List Item := walkUpAux q.length q

/-- The conditional-pattern-base loop of `fp_growth`: walk the occurrence
chain of `x`; for each node collect the ancestor items by parent pointers,
reverse them to root-to-node order, and record `(path, count)` — but only
when the collected path is non-empty (`if !path.is_empty()`). -/
def conditionalBase (t : FPTree) (x : Item) : List (List Item × Nat) :=
  (chain t x).filterMap (fun n =>
    let path := (walkUp n.1.dropLast).reverse
    if path.isEmpty then none else some (path, n.2))

/-- The per-item body of `FPTree::fp_growth`, abstracted over the recursive
call `rec`: emit `(pfx ++ [item], support)`, extract the conditional
pattern base, and when it is non-empty build the conditional tree and
recurse unless its header table is empty.  The emitted pair followed by the
recursion's emissions, in order, is this item's contribution to `result`. -/
def blockOf (rec : List Item → FPTree → Option (List (List Item × Nat)))
    (ms : Nat) (pfx : List Item) (t : FPTree) (x : Item × Nat) :
    Option (List (List Item × Nat)) :=
  let newPfx := pfx ++ [x.1]
  let base := conditionalBase t x.1
  if base.isEmpty then some [(newPfx, x.2)]
  else
    match buildWeighted base ms with
    | none => none
    | some ct =>
      if ct.header.isEmpty then some [(newPfx, x.2)]
      else
        match rec newPfx ct with
        | none => none
        | some r => some ((newPfx, x.2) :: r)

/-- The loop of `FPTree::fp_growth` over this level's items, pushing each
item's block into `result` in iteration order. -/
def fpGrowthStep (rec : List Item → FPTree → Option (List (List Item × Nat)))
    (ms : Nat) (pfx : List Item) (t : FPTree) :
    List (Item × Nat) → Option (List (List Item × Nat))
  | [] => some []
  | x :: rest =>
    match blockOf rec ms pfx t x with
    | none => none
    | some blk =>
      match fpGrowthStep rec ms pfx t rest with
      | none => none
      | some rest2 => some (blk ++ rest2)

/-- `FPTree::fp_growth(prefix, min_support, result)`.  The oracle `ord`
yields the iteration order of the header items of this level (Rust:
collect the `HashMap` in nondeterministic order, then stable-sort by
ascending support); a faithful oracle returns a permutation of the header
list.  Fuel exhaustion returns `some []`, so `none` means a panic. -/
def fpGrowth (ord : List Item → List (Item × Nat) → List (Item × Nat)) (ms : Nat) :
    Nat → List Item → FPTree → Option (List (List Item × Nat))
  | 0, _, _ => some []
  | fuel + 1, pfx, t => fpGrowthStep (fpGrowth ord ms fuel) ms pfx t (ord pfx t.header)

/-- `FPTree::mine(min_support)`. -/
def mine (ord : List Item → List (Item × Nat) → List (Item × Nat))
    (fuel : Nat) (t : FPTree) (ms : Nat) : Option (List (List Item × Nat)) :=
  fpGrowth ord ms fuel [] t

/-- `build` followed by `mine` (the mining part of the top-level driver),
with an absolute support threshold. -/
def mineRun (ord : List Item → List (Item × Nat) → List (Item × Nat))
    (fuel : Nat) (transactions : List (List Item)) (ms : Nat) :
    Option (List (List Item × Nat)) :=
  match build transactions ms with
  | none => none
  | some t => mine ord fuel t ms

/-- One concrete faithful oracle: ascending by support, ties by item — a
possible resolution of the nondeterministic hash order followed by Rust's
stable `sort_by(|a, b| a.1.cmp(&b.1))` on the supports. -/
def ordCanon : List Item → List (Item × Nat) → List (Item × Nat) :=
  fun _ l =>
    List.insertionSort (fun a b => a.2 < b.2 ∨ (a.2 = b.2 ∧ a.1 ≤ b.1)) l

/-- `generate_all_subsets`' inner loop: the subsequence of `itemset`
selected by the bits of `mask` (bit `i` selects `itemset[i]`). -/
def maskSubset : List Item → Nat → List Item
  | [], _ => []
  | x :: xs, m => if m % 2 = 1 then x :: maskSubset xs (m / 2) else maskSubset xs (m / 2)

/-- `generate_all_subsets(itemset)`: one subsequence per mask in
`0..2^n`. -/
def generateAllSubsets (itemset : List Item) : List (List Item) :=
  (List.range (2 ^ itemset.length)).map (maskSubset itemset)

/-- `support_map.get(subset).unwrap_or(&0)`: the support map is a `HashMap`
filled by iterating the frequent-itemset list, so a repeated key keeps the
last inserted value — i.e. the first match in the reversed list. -/
def supportMapGet (freq : List (List Item × Nat)) (k : List Item) : Nat :=
  (lookupA freq.reverse k).getD 0

/-- `generate_rules(frequent_itemsets, min_confidence)`:
for every itemset of size ≥ 2 and every mask-generated subset that is
neither empty nor full-length, form the consequent by difference, skip it
if empty, skip antecedents of support 0, and keep the rule when
`support / antecedent_support ≥ min_confidence`. -/
def generateRules (freq : List (List Item × Nat)) (minConf : ℚ) :
    List (List Item × List Item × ℚ) :=
  freq.flatMap (fun e =>
    if e.1.length ≤ 1 then []
    else
      (generateAllSubsets e.1).filterMap (fun sub =>
        if sub.isEmpty then none
        else if sub.length = e.1.length then none
        else if (e.1.filter (fun x => decide (x ∉ sub))).isEmpty then none
        else if supportMapGet freq sub = 0 then none
        else if minConf ≤ (e.2 : ℚ) / (supportMapGet freq sub : ℚ) then
          some (sub, e.1.filter (fun x => decide (x ∉ sub)),
            (e.2 : ℚ) / (supportMapGet freq sub : ℚ))
        else none))

/-- `(min_support * transactions.len() as f64).ceil() as usize`, modelled
exactly over `ℚ` (`as usize` truncates negatives to 0, as `Int.toNat`
does). -/
def minCountOf (msFrac : ℚ) (n : Nat) : Nat := (Int.ceil (msFrac * n)).toNat

/-- The top-level `fp_growth(transactions, min_support, min_confidence)`
driver: derive the absolute count, build, mine, generate rules. -/
def fpGrowthTop (ord : List Item → List (Item × Nat) → List (Item × Nat))
    (fuel : Nat) (transactions : List (List Item)) (msFrac minConf : ℚ) :
    Option (List (List Item × Nat) × List (List Item × List Item × ℚ)) :=
  let mc := minCountOf msFrac transactions.length
  match build transactions mc with
  | none => none
  | some t =>
    match mine ord fuel t mc with
    | none => none
    | some freq => some (freq, generateRules freq minConf)

/-- Reference semantics of support used by the claims: the number of
transactions containing every item of `s`. -/
def supportOf (transactions : List (List Item)) (s : List Item) : Nat :=
  transactions.countP (fun tr => s.all (fun x => decide (x ∈ tr)))

/-- Sum of `count` over every node on the occurrence chain of `x`. -/
def nodeSum (nodes : List (List Item × Nat)) (x : Item) : Nat :=
  ((nodes.filter (fun n => decide (n.1.getLast? = some x))).map (fun n => n.2)).sum

/-- Total weighted number of occurrences of `x` in a weighted path
database. -/
def weightedCount (db : List (List Item × Nat)) (x : Item) : Nat :=
  (db.map (fun pw => pw.2 * pw.1.count x)).sum

/-- The ten reference transactions hard-coded in `main`. -/
def refTransactions : List (List Item) :=
  [['a', 'b', 'c', 'd'],
   ['b', 'c', 'd'],
   ['a', 'e', 'f', 'g', 'h'],
   ['b', 'c', 'd', 'e', 'g', 'j'],
   ['b', 'c', 'd', 'e', 'f'],
   ['a', 'f', 'g'],
   ['a', 'i', 'j'],
   ['a', 'b', 'e', 'h'],
   ['f', 'g', 'h', 'i', 'j'],
   ['e', 'f', 'h']]

/-- An eight-transaction input (duplicate-free item sets, listed in
inconsistent orders) on which the pipeline emits a rule of confidence 2;
used by the confidence-bound counterexample. -/
def confInput : List (List Item) :=
  [['x', 'b', 'j', 'i'],
   ['b', 'x', 'j', 'i'],
   ['b', 'x', 'i'],
   ['x', 'j', 'i'],
   ['b', 'i'],
   ['x', 'b', 'j'],
   ['x', 'b', 'j'],
   ['j']]

end FPGrowth

namespace FPGrowth

open List

/-- The parent walk from the ancestor at path `q` collects the items of `q`
deepest-first. -/
theorem walkUp_eq_reverse (q : List Item) : walkUp q = q.reverse := by
  induction q using List.reverseRecOn with
  | nil => rfl
  | append_singleton l a ih =>
      simp only [walkUp, List.length_append, List.length_cons, List.length_nil, Nat.zero_add]
      simp only [walkUpAux, List.getLast?_concat, List.dropLast_concat]
      rw [show walkUpAux l.length l = walkUp l from rfl, ih]
      simp

/-- C5 (amended): the conditional-base extraction records one
`(path, weight)` pair for every node on the item's occurrence chain whose
parent is not the root (a node hanging directly off the root contributes
nothing, because the code drops empty ancestor paths); for each recorded
node the weight is the node's count and the path is the sequence of its
ancestor items from the root down to its parent. -/
theorem conditionalBase_eq_chain (t : FPTree) (x : Item) :
    conditionalBase t x =
      (chain t x).filterMap (fun n =>
        if n.1.dropLast = [] then none else some (n.1.dropLast, n.2)) := by
  unfold conditionalBase
  simp only [walkUp_eq_reverse, List.reverse_reverse, List.isEmpty_iff]

/-- C5 counterexample: on the tree built from the single transaction
`['a']`, the occurrence chain of `'a'` holds one node, yet the
conditional-base extraction records no pair for it (its parent is the
root), refuting "one pair for every node on the chain". -/
theorem conditionalBase_skips_root_children :
    (buildWeighted [(['a'], 1)] 1).map
        (fun t => ((conditionalBase t 'a').length, (chain t 'a').length)) =
      some (0, 1) := by decide

/-- C4: an empty transaction collection yields an empty frequent-itemset
list and an empty rule list, for every support fraction and confidence
threshold (and any faithful iteration oracle and fuel). -/
theorem empty_input_yields_empty
    (ord : List Item → List (Item × Nat) → List (Item × Nat))
    (hord : ∀ p l, ord p l ~ l) (fuel : Nat) (msFrac minConf : ℚ) :
    fpGrowthTop ord fuel [] msFrac minConf = some ([], []) := by
  have hnil : ord [] ([] : List (Item × Nat)) = [] := (hord [] []).eq_nil
  have hm : mine ord fuel ⟨[], []⟩ (minCountOf msFrac 0) = some [] := by
    cases fuel with
    | zero => rfl
    | succ n =>
        show fpGrowthStep _ _ _ _ (ord [] (FPTree.mk [] []).header) = some []
        rw [show (FPTree.mk [] []).header = [] from rfl, hnil]
        rfl
  have hb : build ([] : List (List Item)) (minCountOf msFrac 0) = some ⟨[], []⟩ := rfl
  simp only [fpGrowthTop, List.length_nil, hb, hm]
  rfl

/-- Witness for C4 at a concrete oracle, fuel and parameters. -/
theorem empty_input_yields_empty_check :
    fpGrowthTop ordCanon 3 [] (1 / 2) (1 / 2) = some ([], []) :=
  empty_input_yields_empty ordCanon (fun _ l => List.perm_insertionSort _ l) 3 (1 / 2) (1 / 2)

/-- C1 is violated by the code: on the two transactions `['a','b']` and
`['b','a']` (the same two item sets, listed in different orders) with
threshold 2, the itemset `{a,b}` has support 2 but the miner emits only the
two singletons — the stable per-transaction sort breaks ties by the
transactions' own listing order, so the two transactions are inserted along
incompatible branches. -/
theorem mine_misses_frequent_itemset :
    supportOf [['a', 'b'], ['b', 'a']] ['a', 'b'] = 2 ∧
    mineRun ordCanon 10 [['a', 'b'], ['b', 'a']] 2 = some [(['a'], 2), (['b'], 2)] ∧
    ∀ e ∈ (mineRun ordCanon 10 [['a', 'b'], ['b', 'a']] 2).getD [],
      ¬ ('a' ∈ e.1 ∧ 'b' ∈ e.1) := by decide

/-- C3 is violated by the code: on three order-inconsistent transactions
with threshold 1, the miner emits the set `{a,b}` (as `['b','a']`) paired
with support 1 and its superset `{a,b,x}` (as `['a','b','x']`) paired with
support 2 — the support paired with `S` is smaller than the support paired
with `S ∪ {x}`. -/
theorem mine_violates_anti_monotonicity :
    (['b', 'a'], 1) ∈
        (mineRun ordCanon 10 [['x', 'b', 'a'], ['x', 'b', 'a'], ['x', 'a', 'b']] 1).getD [] ∧
    (['a', 'b', 'x'], 2) ∈
        (mineRun ordCanon 10 [['x', 'b', 'a'], ['x', 'b', 'a'], ['x', 'a', 'b']] 1).getD [] ∧
    (['a', 'b', 'x'] : List Item).toFinset = insert 'x' (['b', 'a'] : List Item).toFinset ∧
    (1 : Nat) < 2 := by decide

unseal Rat.mul Rat.inv Rat.add in
/-- C6: on the reference dataset with `min_support = 0.4` (so the absolute
count is 4) and `min_confidence = 0.75`, the miner emits `{b,c,d}` with
support 4 and `{f}` with support 5, and the rule generator emits
`{b,c} ⇒ {d}` with confidence exactly 1. -/
theorem worked_scenario_holds :
    minCountOf (2 / 5) refTransactions.length = 4 ∧
    (∃ e ∈ ((fpGrowthTop ordCanon 20 refTransactions (2 / 5) (3 / 4)).map
        (fun pr => pr.1)).getD [],
      e.1.toFinset = ({'b', 'c', 'd'} : Finset Item) ∧ e.2 = 4) ∧
    (∃ e ∈ ((fpGrowthTop ordCanon 20 refTransactions (2 / 5) (3 / 4)).map
        (fun pr => pr.1)).getD [],
      e.1.toFinset = ({'f'} : Finset Item) ∧ e.2 = 5) ∧
    (∃ r ∈ ((fpGrowthTop ordCanon 20 refTransactions (2 / 5) (3 / 4)).map
        (fun pr => pr.2)).getD [],
      r.1.toFinset = ({'b', 'c'} : Finset Item) ∧
      r.2.1.toFinset = ({'d'} : Finset Item) ∧ r.2.2 = 1) := by decide

unseal Rat.mul Rat.inv Rat.add in
/-- C7 is violated by the code: on `confInput` (eight duplicate-free item
sets) with `min_support = 0.125` and `min_confidence = 0.75`, the pipeline
emits the itemset sequence `['i','j','b','x']` with support 2 while its
antecedent subsequence `['i','b','x']` is stored with support 1, so the
rule `{i,b,x} ⇒ {j}` is emitted with confidence 2, outside `[0,1]`. -/
theorem rule_confidence_exceeds_one :
    (['i', 'j', 'b', 'x'], 2) ∈
        ((fpGrowthTop ordCanon 15 confInput (1 / 8) (3 / 4)).map (fun pr => pr.1)).getD [] ∧
    (['i', 'b', 'x'], 1) ∈
        ((fpGrowthTop ordCanon 15 confInput (1 / 8) (3 / 4)).map (fun pr => pr.1)).getD [] ∧
    (['i', 'b', 'x'], ['j'], (2 : ℚ)) ∈
        ((fpGrowthTop ordCanon 15 confInput (1 / 8) (3 / 4)).map (fun pr => pr.2)).getD [] ∧
    ¬ ((2 : ℚ) ≤ 1) := by decide

theorem addTransactionGo_header :
    ∀ (items : List Item) (t : FPTree) (cur : List Item) (w : Nat) (t2 : FPTree),
      addTransactionGo t cur items w = some t2 → t2.header = t.header := by
  intro items
  induction items with
  | nil =>
      intro t cur w t2 h
      simp only [addTransactionGo] at h
      cases h
      rfl
  | cons it rest ih =>
      intro t cur w t2 h
      simp only [addTransactionGo] at h
      split at h
      · exact (ih _ _ _ _ h).trans rfl
      · split at h
        · exact (ih _ _ _ _ h).trans rfl
        · cases h

theorem addTransactionGo_isSome :
    ∀ (items : List Item) (t : FPTree) (cur : List Item) (w : Nat),
      (∀ it ∈ items, (lookupA t.header it).isSome) →
      (addTransactionGo t cur items w).isSome := by
  intro items
  induction items with
  | nil => intro t cur w _; simp [addTransactionGo]
  | cons it rest ih =>
      intro t cur w h
      simp only [addTransactionGo]
      split
      · exact ih _ _ _ (fun i hi => h i (List.mem_cons_of_mem _ hi))
      · rename_i hnone
        cases hh : lookupA t.header it with
        | none =>
            have := h it (List.mem_cons_self it rest)
            rw [hh] at this
            cases this
        | some s =>
            simp only [hh]
            exact ih _ _ _ (fun i hi => h i (List.mem_cons_of_mem _ hi))

theorem insertPaths_header :
    ∀ (db : List (List Item × Nat)) (t t2 : FPTree),
      insertPaths t db = some t2 → t2.header = t.header := by
  intro db
  induction db with
  | nil =>
      intro t t2 h
      simp only [insertPaths] at h
      cases h
      rfl
  | cons pw rest ih =>
      intro t t2 h
      simp only [insertPaths] at h
      split at h
      · exact ih _ _ h
      · split at h
        · rename_i t3 hadd
          rw [ih _ _ h, addTransactionGo_header _ _ _ _ _ hadd]
        · cases h

/-- Every item of a filtered-then-sorted transaction is a key of the header
table it was filtered against. -/
theorem mem_sorted_filtered_header (hdr : List (Item × Nat)) (path : List Item) (it : Item)
    (h : it ∈ (sortDescBySupport (path.filterMap
        (fun i => (lookupA hdr i).map (fun s => (i, s))))).map (fun p => p.1)) :
    (lookupA hdr it).isSome := by
  rcases List.mem_map.1 h with ⟨pr, hpr, hfst⟩
  have hpr2 : pr ∈ path.filterMap (fun i => (lookupA hdr i).map (fun s => (i, s))) :=
    ((List.perm_insertionSort _ _).mem_iff).1 hpr
  rcases List.mem_filterMap.1 hpr2 with ⟨i, _, hsome⟩
  rcases Option.map_eq_some'.1 hsome with ⟨s, hs, hpair⟩
  rw [← hfst, ← hpair]
  simp [hs]

theorem insertPaths_isSome :
    ∀ (db : List (List Item × Nat)) (t : FPTree), (insertPaths t db).isSome := by
  intro db
  induction db with
  | nil => intro t; simp [insertPaths]
  | cons pw rest ih =>
      intro t
      simp only [insertPaths]
      split
      · exact ih t
      · have hs : (addTransaction t ((sortDescBySupport (pw.1.filterMap
            (fun i => (lookupA t.header i).map (fun s => (i, s))))).map (fun p => p.1))
            pw.2).isSome :=
          addTransactionGo_isSome _ _ _ _
            (fun i hi => mem_sorted_filtered_header t.header pw.1 i hi)
        cases hadd : addTransaction t ((sortDescBySupport (pw.1.filterMap
            (fun i => (lookupA t.header i).map (fun s => (i, s))))).map (fun p => p.1)) pw.2 with
        | none => rw [hadd] at hs; cases hs
        | some t3 =>
            simp only [addTransaction] at hadd
            simp only [hadd]
            exact ih t3

theorem buildWeighted_isSome (db : List (List Item × Nat)) (ms : Nat) :
    (buildWeighted db ms).isSome :=
  insertPaths_isSome db _

theorem blockOf_isSome (rec : List Item → FPTree → Option (List (List Item × Nat)))
    (ms : Nat) (pfx : List Item) (t : FPTree) (x : Item × Nat)
    (hrec : ∀ p ct, (rec p ct).isSome) : (blockOf rec ms pfx t x).isSome := by
  simp only [blockOf]
  split
  · rfl
  · cases hbw : buildWeighted (conditionalBase t x.1) ms with
    | none => have := buildWeighted_isSome (conditionalBase t x.1) ms; rw [hbw] at this; cases this
    | some ct =>
        simp only
        split
        · rfl
        · cases hr : rec (pfx ++ [x.1]) ct with
          | none => have := hrec (pfx ++ [x.1]) ct; rw [hr] at this; cases this
          | some r => rfl

theorem fpGrowthStep_isSome (rec : List Item → FPTree → Option (List (List Item × Nat)))
    (ms : Nat) (pfx : List Item) (t : FPTree)
    (hrec : ∀ p ct, (rec p ct).isSome) :
    ∀ l, (fpGrowthStep rec ms pfx t l).isSome := by
  intro l
  induction l with
  | nil => simp [fpGrowthStep]
  | cons x rest ih =>
      simp only [fpGrowthStep]
      cases hb : blockOf rec ms pfx t x with
      | none => have := blockOf_isSome rec ms pfx t x hrec; rw [hb] at this; cases this
      | some blk =>
          cases hrest : fpGrowthStep rec ms pfx t rest with
          | none => rw [hrest] at ih; cases ih
          | some rest2 => rfl

theorem fpGrowth_isSome (ord : List Item → List (Item × Nat) → List (Item × Nat)) (ms : Nat) :
    ∀ (fuel : Nat) (pfx : List Item) (t : FPTree), (fpGrowth ord ms fuel pfx t).isSome := by
  intro fuel
  induction fuel with
  | zero => intro pfx t; rfl
  | succ n ih =>
      intro pfx t
      exact fpGrowthStep_isSome _ _ _ _ (fun p ct => ih p ct) _

/-- C10: the `unwrap` inside `add_transaction` can never fire.  Every item
that `build` or the conditional-tree construction passes to
`add_transaction` was kept by filtering the path against that tree's header
table, so the whole pipeline always returns a value (`none` models exactly
a panic; exhausted fuel returns `some`). -/
theorem pipeline_never_panics (ord : List Item → List (Item × Nat) → List (Item × Nat))
    (fuel : Nat) (transactions : List (List Item)) (msFrac minConf : ℚ) :
    (fpGrowthTop ord fuel transactions msFrac minConf).isSome = true := by
  simp only [fpGrowthTop]
  cases hb : build transactions (minCountOf msFrac transactions.length) with
  | none =>
      have := buildWeighted_isSome (transactions.map (fun tr => (tr, 1)))
        (minCountOf msFrac transactions.length)
      simp only [build] at hb
      rw [hb] at this
      cases this
  | some t =>
      cases hm : mine ord fuel t (minCountOf msFrac transactions.length) with
      | none =>
          have := fpGrowth_isSome ord (minCountOf msFrac transactions.length) fuel [] t
          simp only [mine] at hm
          rw [hm] at this
          cases this
      | some freq => simp [hm]

theorem lookupA_eq_none {α β : Type} [DecidableEq α] :
    ∀ (l : List (α × β)) (x : α), lookupA l x = none ↔ x ∉ l.map Prod.fst := by
  intro l x
  induction l with
  | nil => simp [lookupA]
  | cons kv t ih =>
      obtain ⟨k, v⟩ := kv
      by_cases hk : k = x
      · subst hk
        simp [lookupA]
      · have hxk : ¬ x = k := fun h => hk h.symm
        simp only [lookupA, if_neg hk, List.map_cons, List.mem_cons]
        rw [ih]
        constructor
        · intro hnot h
          rcases h with h | h
          · exact hxk h
          · exact hnot h
        · intro hnot h
          exact hnot (Or.inr h)

theorem lookupA_of_mem_nodup {α β : Type} [DecidableEq α] :
    ∀ (l : List (α × β)) (x : α) (s : β), (x, s) ∈ l → (l.map Prod.fst).Nodup →
      lookupA l x = some s := by
  intro l
  induction l with
  | nil => intro x s h _; cases h
  | cons kv t ih =>
      intro x s h hnd
      cases kv with
      | mk k v =>
          simp only [List.map_cons, List.nodup_cons] at hnd
          rcases List.mem_cons.1 h with h1 | h2
          · cases h1
            simp [lookupA]
          · have hk : k ≠ x := by
              intro he
              exact hnd.1 (he ▸ (List.mem_map.2 ⟨(x, s), h2, rfl⟩))
            simp only [lookupA, if_neg hk]
            exact ih x s h2 hnd.2

theorem bumpA_lookup {α : Type} [DecidableEq α] :
    ∀ (l : List (α × Nat)) (x : α) (w : Nat) (y : α),
      lookupA (bumpA l x w) y =
        if x = y then some ((lookupA l y).getD 0 + w) else lookupA l y := by
  intro l
  induction l with
  | nil =>
      intro x w y
      by_cases hxy : x = y <;> simp [bumpA, lookupA, hxy]
  | cons kv t ih =>
      intro x w y
      cases kv with
      | mk k v =>
          by_cases hkx : k = x
          · subst hkx
            by_cases hky : k = y <;> simp [bumpA, lookupA, hky]
          · by_cases hky : k = y
            · subst hky
              have hxk : ¬ x = k := fun h => hkx h.symm
              simp [bumpA, lookupA, hkx, hxk]
            · simp [bumpA, lookupA, hkx, hky, ih]

theorem bumpA_keys {α : Type} [DecidableEq α] :
    ∀ (l : List (α × Nat)) (x : α) (w : Nat),
      (bumpA l x w).map Prod.fst = l.map Prod.fst ∨
      (bumpA l x w).map Prod.fst = l.map Prod.fst ++ [x] ∧ x ∉ l.map Prod.fst := by
  intro l
  induction l with
  | nil => intro x w; right; simp [bumpA]
  | cons kv t ih =>
      intro x w
      cases kv with
      | mk k v =>
          by_cases hkx : k = x
          · left; simp [bumpA, hkx]
          · rcases ih x w with h | ⟨h1, h2⟩
            · left; simp [bumpA, hkx, h]
            · right
              constructor
              · simp [bumpA, hkx, h1]
              · simp only [List.map_cons, List.mem_cons]
                rintro (h | h)
                · exact hkx h.symm
                · exact h2 h

theorem bumpA_keys_nodup {α : Type} [DecidableEq α] (l : List (α × Nat)) (x : α) (w : Nat)
    (h : (l.map Prod.fst).Nodup) : ((bumpA l x w).map Prod.fst).Nodup := by
  rcases bumpA_keys l x w with he | ⟨he, hx⟩
  · rw [he]; exact h
  · rw [he, List.nodup_append]
    refine ⟨h, List.nodup_singleton x, ?_⟩
    intro a ha hax
    rw [List.mem_singleton] at hax
    subst hax
    exact hx ha

theorem pathCounts_lookup :
    ∀ (path : List Item) (acc : List (Item × Nat)) (w : Nat) (y : Item),
      (lookupA (pathCounts acc path w) y).getD 0 =
        (lookupA acc y).getD 0 + w * path.count y := by
  intro path
  induction path with
  | nil => intro acc w y; simp [pathCounts]
  | cons it rest ih =>
      intro acc w y
      have hstep : pathCounts acc (it :: rest) w = pathCounts (bumpA acc it w) rest w := rfl
      rw [hstep, ih, bumpA_lookup]
      by_cases hity : it = y
      · subst hity
        simp [List.count_cons, Nat.mul_add, Nat.add_comm, Nat.add_assoc, Nat.add_left_comm]
      · have : ¬ (it == y) = true := by simpa using hity
        simp [List.count_cons, hity, this]

theorem pathCounts_keys_nodup :
    ∀ (path : List Item) (acc : List (Item × Nat)) (w : Nat),
      ((acc.map Prod.fst).Nodup) → (((pathCounts acc path w).map Prod.fst).Nodup) := by
  intro path
  induction path with
  | nil => intro acc w h; exact h
  | cons it rest ih =>
      intro acc w h
      exact ih (bumpA acc it w) w (bumpA_keys_nodup acc it w h)

theorem dbCountsAux_lookup :
    ∀ (db : List (List Item × Nat)) (acc : List (Item × Nat)) (y : Item),
      (lookupA (db.foldl (fun a pw => pathCounts a pw.1 pw.2) acc) y).getD 0 =
        (lookupA acc y).getD 0 + weightedCount db y := by
  intro db
  induction db with
  | nil => intro acc y; simp [weightedCount]
  | cons pw rest ih =>
      intro acc y
      have hstep : (pw :: rest).foldl (fun a pw2 => pathCounts a pw2.1 pw2.2) acc =
          rest.foldl (fun a pw2 => pathCounts a pw2.1 pw2.2) (pathCounts acc pw.1 pw.2) := rfl
      rw [hstep, ih, pathCounts_lookup]
      simp [weightedCount, Nat.add_assoc]

theorem dbCounts_lookup (db : List (List Item × Nat)) (y : Item) :
    (lookupA (dbCounts db) y).getD 0 = weightedCount db y := by
  have := dbCountsAux_lookup db [] y
  simpa [dbCounts, lookupA] using this

theorem dbCounts_keys_nodup (db : List (List Item × Nat)) :
    ((dbCounts db).map Prod.fst).Nodup := by
  have aux : ∀ (l : List (List Item × Nat)) (acc : List (Item × Nat)),
      (acc.map Prod.fst).Nodup →
      ((l.foldl (fun a pw => pathCounts a pw.1 pw.2) acc).map Prod.fst).Nodup := by
    intro l
    induction l with
    | nil => intro acc h; exact h
    | cons pw rest ih =>
        intro acc h
        exact ih _ (pathCounts_keys_nodup pw.1 acc pw.2 h)
  exact aux db [] (by simp)

theorem buildWeighted_header (db : List (List Item × Nat)) (ms : Nat) (t : FPTree)
    (h : buildWeighted db ms = some t) :
    t.header = (dbCounts db).filter (fun p => ms ≤ p.2) :=
  insertPaths_header db _ t h

theorem header_keys_nodup (db : List (List Item × Nat)) (ms : Nat) (t : FPTree)
    (h : buildWeighted db ms = some t) : (t.header.map Prod.fst).Nodup := by
  rw [buildWeighted_header db ms t h]
  exact (dbCounts_keys_nodup db).sublist (List.Sublist.map Prod.fst (List.filter_sublist _))

theorem nodeSum_cons (q : List Item) (c0 : Nat) (rest : List (List Item × Nat)) (x : Item) :
    nodeSum ((q, c0) :: rest) x =
      (if q.getLast? = some x then c0 else 0) + nodeSum rest x := by
  by_cases h : q.getLast? = some x <;> simp [nodeSum, h]

theorem incNode_nodeSum :
    ∀ (nodes : List (List Item × Nat)) (p : List Item) (w : Nat) (x : Item) (c : Nat),
      lookupA nodes p = some c →
      nodeSum (incNode nodes p w) x =
        nodeSum nodes x + (if p.getLast? = some x then w else 0) := by
  intro nodes
  induction nodes with
  | nil => intro p w x c h; cases h
  | cons qc rest ih =>
      intro p w x c h
      cases qc with
      | mk q c0 =>
          by_cases hqp : q = p
          · subst hqp
            have hred : incNode ((q, c0) :: rest) q w = (q, c0 + w) :: rest := by
              simp [incNode]
            rw [hred, nodeSum_cons, nodeSum_cons]
            by_cases hlast : q.getLast? = some x
            · simp [hlast]
              omega
            · simp [hlast]
          · simp only [lookupA, if_neg hqp] at h
            simp only [incNode, if_neg hqp]
            rw [nodeSum_cons, nodeSum_cons, ih p w x c h]
            omega

theorem nodeSum_append (nodes : List (List Item × Nat)) (p : List Item) (w : Nat) (x : Item) :
    nodeSum (nodes ++ [(p, w)]) x =
      nodeSum nodes x + (if p.getLast? = some x then w else 0) := by
  by_cases hlast : p.getLast? = some x
  · simp [nodeSum, List.filter_append, hlast]
  · simp [nodeSum, List.filter_append, hlast]

theorem addTransactionGo_nodeSum :
    ∀ (items : List Item) (t : FPTree) (cur : List Item) (w : Nat) (t2 : FPTree),
      addTransactionGo t cur items w = some t2 →
      ∀ x, nodeSum t2.nodes x = nodeSum t.nodes x + w * items.count x := by
  intro items
  induction items with
  | nil =>
      intro t cur w t2 h x
      cases h
      simp
  | cons it rest ih =>
      intro t cur w t2 h x
      simp only [addTransactionGo] at h
      have hlast : (cur ++ [it]).getLast? = some it := List.getLast?_concat cur
      split at h
      · rename_i c hc
        have h2 := ih _ _ _ _ h x
        have h3 := incNode_nodeSum t.nodes (cur ++ [it]) w x c hc
        simp only at h2 h3
        rw [h2, h3, hlast]
        by_cases hit : it = x
        · subst hit
          rw [List.count_cons_self, if_pos rfl]
          ring
        · have hne : ¬ (some it = some x) := by simpa using hit
          rw [List.count_cons_of_ne (fun h2 => hit h2.symm), if_neg hne]
          omega
      · split at h
        · have h2 := ih _ _ _ _ h x
          have h3 := nodeSum_append t.nodes (cur ++ [it]) w x
          simp only at h2 h3
          rw [h2, h3, hlast]
          by_cases hit : it = x
          · subst hit
            rw [List.count_cons_self, if_pos rfl]
            ring
          · have hne : ¬ (some it = some x) := by simpa using hit
            rw [List.count_cons_of_ne (fun h2 => hit h2.symm), if_neg hne]
            omega
        · cases h

/-- The number of pairs keyed `x` in a filtered transaction equals the
number of occurrences of `x` in the path, provided `x` is a header key. -/
theorem countP_filtered (hdr : List (Item × Nat)) (path : List Item) (x : Item)
    (hx : (lookupA hdr x).isSome) :
    (path.filterMap (fun i => (lookupA hdr i).map (fun s => (i, s)))).countP
        (fun pr => pr.1 == x) = path.count x := by
  induction path with
  | nil => simp
  | cons i rest ih =>
      by_cases hix : i = x
      · subst hix
        cases hs : lookupA hdr i with
        | none => rw [hs] at hx; cases hx
        | some s =>
            simp [List.filterMap_cons, hs, List.count_cons, List.countP_cons, ih]
      · have hbeq : ¬ (i == x) = true := by simpa using hix
        cases hs : lookupA hdr i with
        | none =>
            simp [List.filterMap_cons, hs, List.count_cons, hbeq, ih]
        | some s =>
            simp [List.filterMap_cons, hs, List.count_cons, List.countP_cons, hbeq, ih]

/-- Item occurrences in the filtered, sorted, projected transaction agree
with occurrences in the original path, for header keys. -/
theorem count_sorted_filtered (hdr : List (Item × Nat)) (path : List Item) (x : Item)
    (hx : (lookupA hdr x).isSome) :
    ((sortDescBySupport (path.filterMap
        (fun i => (lookupA hdr i).map (fun s => (i, s))))).map (fun p => p.1)).count x =
      path.count x := by
  have h2 : sortDescBySupport (path.filterMap
      (fun i => (lookupA hdr i).map (fun s => (i, s)))) ~
      path.filterMap (fun i => (lookupA hdr i).map (fun s => (i, s))) :=
    List.perm_insertionSort _ _
  have h3 := (h2.map (fun p : Item × Nat => p.1)).count_eq x
  rw [h3]
  have h4 : ((path.filterMap (fun i => (lookupA hdr i).map (fun s => (i, s)))).map
      (fun p : Item × Nat => p.1)).countP (fun a => a == x) =
      (path.filterMap (fun i => (lookupA hdr i).map (fun s => (i, s)))).countP
        (fun pr => pr.1 == x) :=
    List.countP_map (fun a => a == x) (fun p : Item × Nat => p.1) _
  have h5 : ((path.filterMap (fun i => (lookupA hdr i).map (fun s => (i, s)))).map
      (fun p : Item × Nat => p.1)).count x =
      ((path.filterMap (fun i => (lookupA hdr i).map (fun s => (i, s)))).map
        (fun p : Item × Nat => p.1)).countP (fun a => a == x) := rfl
  rw [h5, h4]
  exact countP_filtered hdr path x hx

theorem insertPaths_nodeSum :
    ∀ (db : List (List Item × Nat)) (t t2 : FPTree),
      insertPaths t db = some t2 →
      ∀ x, (lookupA t.header x).isSome →
        nodeSum t2.nodes x = nodeSum t.nodes x + weightedCount db x := by
  intro db
  induction db with
  | nil =>
      intro t t2 h x _
      cases h
      simp [weightedCount]
  | cons pw rest ih =>
      intro t t2 h x hx
      obtain ⟨path, w⟩ := pw
      simp only [insertPaths] at h
      split at h
      · rename_i hempty
        have hsortnil : sortDescBySupport (path.filterMap
            (fun i => (lookupA t.header i).map (fun s => (i, s)))) = [] :=
          List.isEmpty_iff.1 hempty
        have hfil : path.filterMap
            (fun i => (lookupA t.header i).map (fun s => (i, s))) = [] := by
          have hperm := List.perm_insertionSort
            (fun a b : Item × Nat => b.2 ≤ a.2)
            (path.filterMap (fun i => (lookupA t.header i).map (fun s => (i, s))))
          rw [show List.insertionSort (fun a b : Item × Nat => b.2 ≤ a.2)
              (path.filterMap (fun i => (lookupA t.header i).map (fun s => (i, s)))) =
              sortDescBySupport (path.filterMap
                (fun i => (lookupA t.header i).map (fun s => (i, s)))) from rfl,
            hsortnil] at hperm
          exact (hperm.symm).eq_nil
        have hcount : path.count x = 0 := by
          rw [← countP_filtered t.header path x hx, hfil]
          rfl
        have h2 := ih _ _ h x hx
        rw [h2]
        simp [weightedCount, hcount]
      · split at h
        · rename_i t3 hadd
          simp only [addTransaction] at hadd
          have hheader : t3.header = t.header := addTransactionGo_header _ _ _ _ _ hadd
          have h2 := ih _ _ h x (by rw [hheader]; exact hx)
          have h3 := addTransactionGo_nodeSum _ _ _ _ _ hadd x
          simp only at h2 h3
          rw [h2, h3]
          rw [count_sorted_filtered t.header path x hx]
          have hw : weightedCount ((path, w) :: rest) x =
              w * path.count x + weightedCount rest x := by
            simp [weightedCount]
          rw [hw]
          omega
        · cases h

/-- C9: in any tree produced by the shared builder (`FPTree::build` with
unit weights, or the conditional-tree construction inside `fp_growth` on a
pattern base), the header-table support of every item equals the sum of
`count` over the nodes on that item's occurrence chain. -/
theorem header_support_eq_chain_sum (db : List (List Item × Nat)) (ms : Nat) (t : FPTree)
    (h : buildWeighted db ms = some t) :
    ∀ x s, (x, s) ∈ t.header → ((chain t x).map (fun n => n.2)).sum = s := by
  intro x s hmem
  have hh := buildWeighted_header db ms t h
  rw [hh] at hmem
  have hdbmem : (x, s) ∈ dbCounts db := List.mem_of_mem_filter hmem
  have hlook : lookupA (dbCounts db) x = some s :=
    lookupA_of_mem_nodup _ x s hdbmem (dbCounts_keys_nodup db)
  have hs : weightedCount db x = s := by
    rw [← dbCounts_lookup db x, hlook]
    rfl
  have hxh : (lookupA t.header x).isSome := by
    rw [hh]
    rw [lookupA_of_mem_nodup _ x s hmem (by
      rw [← hh]
      exact header_keys_nodup db ms t h)]
    rfl
  have hsum := insertPaths_nodeSum db ⟨[], (dbCounts db).filter (fun p => ms ≤ p.2)⟩ t h x
    (by
      show (lookupA ((FPTree.mk [] ((dbCounts db).filter (fun p => ms ≤ p.2))).header) x).isSome
      rw [show (FPTree.mk [] ((dbCounts db).filter (fun p => ms ≤ p.2))).header =
          t.header from hh.symm]
      exact hxh)
  show nodeSum t.nodes x = s
  rw [hsum]
  show nodeSum [] x + weightedCount db x = s
  rw [hs]
  simp [nodeSum]

/-- Witness for C9: the tree built from the weighted path `(['a','b'], 2)`
at threshold 1 satisfies the chain-sum invariant at item `'a'`, support 2. -/
theorem header_support_eq_chain_sum_check :
    ((chain ⟨[(['a'], 2), (['a', 'b'], 2)], [('a', 2), ('b', 2)]⟩ 'a').map
        (fun n => n.2)).sum = 2 :=
  header_support_eq_chain_sum [(['a', 'b'], 2)] 1
    ⟨[(['a'], 2), (['a', 'b'], 2)], [('a', 2), ('b', 2)]⟩ (by decide) 'a' 2 (by decide)

theorem maskSubset_sublist : ∀ (I : List Item) (m : Nat), maskSubset I m <+ I := by
  intro I
  induction I with
  | nil => intro m; simp [maskSubset]
  | cons x xs ih =>
      intro m
      by_cases hm : m % 2 = 1
      · simp only [maskSubset, if_pos hm]
        exact (ih (m / 2)).cons₂ x
      · simp only [maskSubset, if_neg hm]
        exact (ih (m / 2)).cons x

theorem exists_mask_of_sublist :
    ∀ {A I : List Item}, A <+ I → ∃ m, m < 2 ^ I.length ∧ maskSubset I m = A := by
  intro A I h
  induction h with
  | slnil => exact ⟨0, by simp, rfl⟩
  | cons a h ih =>
      obtain ⟨m, hm, he⟩ := ih
      refine ⟨2 * m, ?_, ?_⟩
      · rw [List.length_cons, pow_succ]
        omega
      · have h2 : ¬ (2 * m) % 2 = 1 := by omega
        simp only [maskSubset, if_neg h2]
        rw [show 2 * m / 2 = m by omega]
        exact he
  | cons₂ a h ih =>
      obtain ⟨m, hm, he⟩ := ih
      refine ⟨2 * m + 1, ?_, ?_⟩
      · rw [List.length_cons, pow_succ]
        omega
      · have h2 : (2 * m + 1) % 2 = 1 := by omega
        simp only [maskSubset, if_pos h2]
        rw [show (2 * m + 1) / 2 = m by omega]
        rw [he]

theorem mem_generateAllSubsets (A I : List Item) :
    A ∈ generateAllSubsets I ↔ A <+ I := by
  simp only [generateAllSubsets, List.mem_map, List.mem_range]
  constructor
  · rintro ⟨m, _, rfl⟩
    exact maskSubset_sublist I m
  · intro h
    obtain ⟨m, hm, he⟩ := exists_mask_of_sublist h
    exact ⟨m, hm, he⟩

/-- C2: `generate_rules` emits `(A, C, q)` exactly when some frequent
itemset entry `(I, s)` of size ≥ 2 has `A` as a non-empty proper subset
(mask-enumerated subsets of a duplicate-free list are exactly its
subsequences), `C = I − A` (so `A` and `C` are disjoint, non-empty, and
together exhaust `I`), the stored antecedent support is positive, and
`q = s / support(A) ≥ min_confidence`. -/
theorem generateRules_spec (freq : List (List Item × Nat)) (minConf : ℚ)
    (hnd : ∀ e ∈ freq, e.1.Nodup) (A C : List Item) (q : ℚ) :
    (A, C, q) ∈ generateRules freq minConf ↔
      ∃ e ∈ freq, 2 ≤ e.1.length ∧ A <+ e.1 ∧ A ≠ [] ∧ A ≠ e.1 ∧
        C = e.1.filter (fun x => decide (x ∉ A)) ∧
        0 < supportMapGet freq A ∧
        q = (e.2 : ℚ) / (supportMapGet freq A : ℚ) ∧ minConf ≤ q := by
  constructor
  · intro hmem
    rw [generateRules, List.mem_flatMap] at hmem
    obtain ⟨e, he, hin⟩ := hmem
    by_cases hlen : e.1.length ≤ 1
    · rw [if_pos hlen] at hin
      cases hin
    · rw [if_neg hlen, List.mem_filterMap] at hin
      obtain ⟨sub, hsub, hf⟩ := hin
      by_cases h1 : sub.isEmpty
      · rw [if_pos h1] at hf; cases hf
      · rw [if_neg h1] at hf
        by_cases h2 : sub.length = e.1.length
        · rw [if_pos h2] at hf; cases hf
        · rw [if_neg h2] at hf
          by_cases h3 : (e.1.filter (fun x => decide (x ∉ sub))).isEmpty
          · rw [if_pos h3] at hf; cases hf
          · rw [if_neg h3] at hf
            by_cases h4 : supportMapGet freq sub = 0
            · rw [if_pos h4] at hf; cases hf
            · rw [if_neg h4] at hf
              by_cases h5 : minConf ≤ (e.2 : ℚ) / (supportMapGet freq sub : ℚ)
              · rw [if_pos h5] at hf
                obtain ⟨rfl, rfl, rfl⟩ : sub = A ∧
                    e.1.filter (fun x => decide (x ∉ sub)) = C ∧
                    (e.2 : ℚ) / (supportMapGet freq sub : ℚ) = q := by
                  have := Option.some.inj hf
                  exact ⟨congrArg (fun z => z.1) this,
                    congrArg (fun z => z.2.1) this,
                    congrArg (fun z => z.2.2) this⟩
                refine ⟨e, he, by omega, (mem_generateAllSubsets sub e.1).1 hsub, ?_, ?_,
                  rfl, Nat.pos_of_ne_zero h4, rfl, h5⟩
                · intro hnil
                  rw [hnil] at h1
                  exact h1 rfl
                · intro heq
                  exact h2 (congrArg List.length heq)
              · rw [if_neg h5] at hf
                cases hf
  · rintro ⟨e, he, hlen2, hsl, hne, hnei, hC, hpos, hq, hmc⟩
    rw [generateRules, List.mem_flatMap]
    refine ⟨e, he, ?_⟩
    rw [if_neg (by omega : ¬ e.1.length ≤ 1), List.mem_filterMap]
    refine ⟨A, (mem_generateAllSubsets A e.1).2 hsl, ?_⟩
    have hA1 : ¬ A.isEmpty = true := by
      simpa [List.isEmpty_iff] using hne
    rw [if_neg hA1]
    have hlendiff : ¬ A.length = e.1.length := by
      intro hl
      exact hnei (hsl.eq_of_length hl)
    rw [if_neg hlendiff]
    have hCne : ¬ (e.1.filter (fun x => decide (x ∉ A))).isEmpty = true := by
      rw [List.isEmpty_iff]
      intro hfil
      have hsubset : ∀ y ∈ e.1, y ∈ A := by
        intro y hy
        by_contra hyA
        have hmem2 : y ∈ e.1.filter (fun x => decide (x ∉ A)) :=
          List.mem_filter.2 ⟨hy, by simpa using hyA⟩
        rw [hfil] at hmem2
        cases hmem2
      have hlenlt : A.length < e.1.length :=
        lt_of_le_of_ne hsl.length_le hlendiff
      have hnodupI : e.1.Nodup := hnd e he
      have hnodupA : A.Nodup := hnodupI.sublist hsl
      have hcard : e.1.toFinset.card ≤ A.toFinset.card :=
        Finset.card_le_card
          (fun y hy => List.mem_toFinset.2 (hsubset y (List.mem_toFinset.1 hy)))
      rw [List.toFinset_card_of_nodup hnodupI, List.toFinset_card_of_nodup hnodupA] at hcard
      omega
    rw [if_neg hCne]
    rw [if_neg (by omega : ¬ supportMapGet freq A = 0)]
    rw [if_pos (hq ▸ hmc)]
    rw [hC, hq]

/-- Witness for C2 at a concrete itemset list: the rule
`['a'] ⇒ ['b']` with confidence 1 is emitted from `(['a','b'], 4)` given
`support(['a']) = 4` and threshold 1/2. -/
theorem generateRules_spec_check :
    (['a'], ['b'], (1 : ℚ)) ∈ generateRules [(['a', 'b'], 4), (['a'], 4)] (1 / 2) :=
  (generateRules_spec [(['a', 'b'], 4), (['a'], 4)] (1 / 2) (by decide) ['a'] ['b'] 1).mpr
    ⟨(['a', 'b'], 4), by decide, by decide,
      (List.nil_sublist ['b']).cons₂ 'a', by decide, by decide, by decide,
      by decide, by norm_num [supportMapGet, lookupA], by norm_num⟩

theorem blockOf_perm (rec1 rec2 : List Item → FPTree → Option (List (List Item × Nat)))
    (ms : Nat) (pfx : List Item) (t : FPTree) (x : Item × Nat)
    (hrec : ∀ p ct r1 r2, rec1 p ct = some r1 → rec2 p ct = some r2 → r1 ~ r2)
    (b1 b2 : List (List Item × Nat))
    (h1 : blockOf rec1 ms pfx t x = some b1) (h2 : blockOf rec2 ms pfx t x = some b2) :
    b1 ~ b2 := by
  simp only [blockOf] at h1 h2
  by_cases hbase : (conditionalBase t x.1).isEmpty
  · rw [if_pos hbase] at h1 h2
    cases h1
    cases h2
    exact List.Perm.refl _
  · rw [if_neg hbase] at h1 h2
    cases hbw : buildWeighted (conditionalBase t x.1) ms with
    | none =>
        rw [hbw] at h1
        cases h1
    | some ct =>
        simp only [hbw] at h1 h2
        by_cases hhd : ct.header.isEmpty
        · rw [if_pos hhd] at h1 h2
          cases h1
          cases h2
          exact List.Perm.refl _
        · rw [if_neg hhd] at h1 h2
          cases hr1 : rec1 (pfx ++ [x.1]) ct with
          | none => rw [hr1] at h1; cases h1
          | some r1 =>
              cases hr2 : rec2 (pfx ++ [x.1]) ct with
              | none => rw [hr2] at h2; cases h2
              | some r2 =>
                  simp only [hr1] at h1
                  simp only [hr2] at h2
                  cases h1
                  cases h2
                  exact (hrec _ _ _ _ hr1 hr2).cons _

theorem fpGrowthStep_eq_flatMap (rec : List Item → FPTree → Option (List (List Item × Nat)))
    (ms : Nat) (pfx : List Item) (t : FPTree) :
    ∀ l, (∀ x ∈ l, (blockOf rec ms pfx t x).isSome) →
      fpGrowthStep rec ms pfx t l =
        some (l.flatMap (fun x => (blockOf rec ms pfx t x).getD [])) := by
  intro l
  induction l with
  | nil => intro _; rfl
  | cons x rest ih =>
      intro h
      simp only [fpGrowthStep]
      cases hb : blockOf rec ms pfx t x with
      | none =>
          have := h x (List.mem_cons_self x rest)
          rw [hb] at this
          cases this
      | some blk =>
          rw [ih (fun y hy => h y (List.mem_cons_of_mem _ hy))]
          simp [hb]

theorem fpGrowth_perm :
    ∀ (fuel : Nat) (ord1 ord2 : List Item → List (Item × Nat) → List (Item × Nat)),
      (∀ p l, ord1 p l ~ l) → (∀ p l, ord2 p l ~ l) →
      ∀ (ms : Nat) (pfx : List Item) (t : FPTree) (r1 r2 : List (List Item × Nat)),
        fpGrowth ord1 ms fuel pfx t = some r1 →
        fpGrowth ord2 ms fuel pfx t = some r2 → r1 ~ r2 := by
  intro fuel
  induction fuel with
  | zero =>
      intro ord1 ord2 hv1 hv2 ms pfx t r1 r2 e1 e2
      cases e1
      cases e2
      exact List.Perm.refl _
  | succ n ih =>
      intro ord1 ord2 hv1 hv2 ms pfx t r1 r2 e1 e2
      have htot1 : ∀ x ∈ ord1 pfx t.header,
          (blockOf (fpGrowth ord1 ms n) ms pfx t x).isSome :=
        fun x _ => blockOf_isSome _ _ _ _ _ (fun p ct => fpGrowth_isSome ord1 ms n p ct)
      have htot2 : ∀ x ∈ ord2 pfx t.header,
          (blockOf (fpGrowth ord2 ms n) ms pfx t x).isSome :=
        fun x _ => blockOf_isSome _ _ _ _ _ (fun p ct => fpGrowth_isSome ord2 ms n p ct)
      simp only [fpGrowth] at e1 e2
      rw [fpGrowthStep_eq_flatMap _ _ _ _ _ htot1] at e1
      rw [fpGrowthStep_eq_flatMap _ _ _ _ _ htot2] at e2
      cases e1
      cases e2
      have hperm : ord1 pfx t.header ~ ord2 pfx t.header :=
        (hv1 pfx t.header).trans (hv2 pfx t.header).symm
      have hpoint : ∀ x ∈ ord2 pfx t.header,
          (blockOf (fpGrowth ord1 ms n) ms pfx t x).getD [] ~
          (blockOf (fpGrowth ord2 ms n) ms pfx t x).getD [] := by
        intro x _
        obtain ⟨b1, hb1⟩ := Option.isSome_iff_exists.1
          (blockOf_isSome (fpGrowth ord1 ms n) ms pfx t x
            (fun p ct => fpGrowth_isSome ord1 ms n p ct))
        obtain ⟨b2, hb2⟩ := Option.isSome_iff_exists.1
          (blockOf_isSome (fpGrowth ord2 ms n) ms pfx t x
            (fun p ct => fpGrowth_isSome ord2 ms n p ct))
        rw [hb1, hb2]
        exact blockOf_perm _ _ _ _ _ _
          (fun p ct s1 s2 hs1 hs2 => ih ord1 ord2 hv1 hv2 ms p ct s1 s2 hs1 hs2)
          b1 b2 hb1 hb2
      exact (hperm.flatMap_right _).trans (List.Perm.flatMap_left _ hpoint)

theorem flatMapBlocks_keys (bD : Item × Nat → List (List Item × Nat)) (pfx : List Item) :
    ∀ l : List (Item × Nat),
      ((l.map Prod.fst).Nodup) →
      (∀ x ∈ l, (∀ e ∈ bD x, ∃ suf, e.1 = pfx ++ x.1 :: suf) ∧
        ((bD x).map Prod.fst).Nodup) →
      (∀ e ∈ l.flatMap bD, ∃ x, x ∈ l ∧ ∃ suf, e.1 = pfx ++ x.1 :: suf) ∧
      ((l.flatMap bD).map Prod.fst).Nodup := by
  intro l
  induction l with
  | nil => intro _ _; exact ⟨by simp, by simp⟩
  | cons x rest ih =>
      intro hnd hblocks
      have hndt : ((rest.map Prod.fst).Nodup) ∧ x.1 ∉ rest.map Prod.fst := by
        rw [List.map_cons, List.nodup_cons] at hnd
        exact ⟨hnd.2, hnd.1⟩
      have hx := hblocks x (List.mem_cons_self x rest)
      have hrest := ih hndt.1 (fun y hy => hblocks y (List.mem_cons_of_mem _ hy))
      constructor
      · intro e he
        rw [List.flatMap_cons, List.mem_append] at he
        rcases he with he | he
        · exact ⟨x, List.mem_cons_self _ _, hx.1 e he⟩
        · obtain ⟨y, hy, hsuf⟩ := hrest.1 e he
          exact ⟨y, List.mem_cons_of_mem _ hy, hsuf⟩
      · rw [List.flatMap_cons, List.map_append, List.nodup_append]
        refine ⟨hx.2, hrest.2, ?_⟩
        intro a ha1 ha2
        rcases List.mem_map.1 ha1 with ⟨e1, he1, hkey1⟩
        rcases List.mem_map.1 ha2 with ⟨e2, he2, hkey2⟩
        obtain ⟨suf1, hs1⟩ := hx.1 e1 he1
        obtain ⟨y, hy, suf2, hs2⟩ := hrest.1 e2 he2
        have hcat : pfx ++ x.1 :: suf1 = pfx ++ y.1 :: suf2 := by
          rw [← hs1, ← hs2, hkey1, hkey2]
        have hcons := List.append_cancel_left hcat
        have hxy1 : x.1 = y.1 := by
          injection hcons
        exact hndt.2 (hxy1 ▸ List.mem_map.2 ⟨y, hy, rfl⟩)

theorem fpGrowth_keys :
    ∀ (fuel : Nat) (ord : List Item → List (Item × Nat) → List (Item × Nat)),
      (∀ p l, ord p l ~ l) →
      ∀ (ms : Nat) (pfx : List Item) (t : FPTree),
        (t.header.map Prod.fst).Nodup →
        ∀ r, fpGrowth ord ms fuel pfx t = some r →
          (∀ e ∈ r, ∃ suf, suf ≠ [] ∧ e.1 = pfx ++ suf) ∧
          ((r.map Prod.fst).Nodup) := by
  intro fuel
  induction fuel with
  | zero =>
      intro ord hv ms pfx t ht r hr
      cases hr
      exact ⟨by simp, by simp⟩
  | succ n ih =>
      intro ord hv ms pfx t ht r hr
      have htot : ∀ x ∈ ord pfx t.header,
          (blockOf (fpGrowth ord ms n) ms pfx t x).isSome :=
        fun x _ => blockOf_isSome _ _ _ _ _ (fun p ct => fpGrowth_isSome ord ms n p ct)
      simp only [fpGrowth] at hr
      rw [fpGrowthStep_eq_flatMap _ _ _ _ _ htot] at hr
      cases hr
      have hlnd : (((ord pfx t.header).map Prod.fst).Nodup) := by
        rw [((hv pfx t.header).map Prod.fst).nodup_iff]
        exact ht
      have hblocks : ∀ x ∈ ord pfx t.header,
          (∀ e ∈ (blockOf (fpGrowth ord ms n) ms pfx t x).getD [],
            ∃ suf, e.1 = pfx ++ x.1 :: suf) ∧
          (((blockOf (fpGrowth ord ms n) ms pfx t x).getD []).map Prod.fst).Nodup := by
        intro x _
        simp only [blockOf]
        by_cases hbase : (conditionalBase t x.1).isEmpty
        · rw [if_pos hbase]
          refine ⟨?_, by simp⟩
          intro e he
          simp only [Option.getD_some, List.mem_singleton] at he
          subst he
          exact ⟨[], rfl⟩
        · rw [if_neg hbase]
          cases hbw : buildWeighted (conditionalBase t x.1) ms with
          | none =>
              have := buildWeighted_isSome (conditionalBase t x.1) ms
              rw [hbw] at this
              cases this
          | some ct =>
              simp only
              by_cases hhd : ct.header.isEmpty
              · rw [if_pos hhd]
                refine ⟨?_, by simp⟩
                intro e he
                simp only [Option.getD_some, List.mem_singleton] at he
                subst he
                exact ⟨[], rfl⟩
              · rw [if_neg hhd]
                cases hrec : fpGrowth ord ms n (pfx ++ [x.1]) ct with
                | none =>
                    have := fpGrowth_isSome ord ms n (pfx ++ [x.1]) ct
                    rw [hrec] at this
                    cases this
                | some r2 =>
                    simp only [Option.getD_some]
                    have hct : ((ct.header.map Prod.fst).Nodup) :=
                      header_keys_nodup _ _ _ hbw
                    have hih := ih ord hv ms (pfx ++ [x.1]) ct hct r2 hrec
                    constructor
                    · intro e he
                      rcases List.mem_cons.1 he with he1 | he2
                      · subst he1
                        exact ⟨[], rfl⟩
                      · obtain ⟨suf, _, hs⟩ := hih.1 e he2
                        refine ⟨suf, ?_⟩
                        rw [hs, List.append_assoc]
                        rfl
                    · rw [List.map_cons, List.nodup_cons]
                      refine ⟨?_, hih.2⟩
                      intro hbad
                      rcases List.mem_map.1 hbad with ⟨e, he, hkey⟩
                      obtain ⟨suf, hsne, hs⟩ := hih.1 e he
                      have hlen := congrArg List.length (hkey.symm.trans hs)
                      simp only [List.length_append] at hlen
                      have hz : suf.length = 0 := by omega
                      exact hsne (List.eq_nil_of_length_eq_zero hz)
      have hmain := flatMapBlocks_keys
        (fun x => (blockOf (fpGrowth ord ms n) ms pfx t x).getD []) pfx
        (ord pfx t.header) hlnd hblocks
      constructor
      · intro e he
        obtain ⟨x, _, suf, hs⟩ := hmain.1 e he
        exact ⟨x.1 :: suf, by simp, hs⟩
      · exact hmain.2

theorem mem_of_lookupA {α β : Type} [DecidableEq α] :
    ∀ (l : List (α × β)) (x : α) (v : β), lookupA l x = some v → (x, v) ∈ l := by
  intro l
  induction l with
  | nil => intro x v h; cases h
  | cons kv t ih =>
      intro x v h
      obtain ⟨k, w⟩ := kv
      by_cases hk : k = x
      · subst hk
        simp only [lookupA, if_pos rfl] at h
        cases h
        exact List.mem_cons_self _ _
      · simp only [lookupA, if_neg hk] at h
        exact List.mem_cons_of_mem _ (ih x v h)

theorem supportMapGet_eq_of_perm (f1 f2 : List (List Item × Nat))
    (hperm : f1 ~ f2) (hnd : (f1.map Prod.fst).Nodup) (k : List Item) :
    supportMapGet f1 k = supportMapGet f2 k := by
  have hrev : f1.reverse ~ f2.reverse :=
    (f1.reverse_perm.trans hperm).trans f2.reverse_perm.symm
  have hnd1 : ((f1.reverse.map Prod.fst).Nodup) := by
    rw [((f1.reverse_perm).map Prod.fst).nodup_iff]
    exact hnd
  have hnd2 : ((f2.reverse.map Prod.fst).Nodup) := by
    rw [← ((hrev).map Prod.fst).nodup_iff]
    exact hnd1
  unfold supportMapGet
  cases hl : lookupA f1.reverse k with
  | none =>
      have hk : k ∉ f1.reverse.map Prod.fst := (lookupA_eq_none _ _).1 hl
      have hk2 : k ∉ f2.reverse.map Prod.fst := by
        intro hm
        exact hk (((hrev).map Prod.fst).mem_iff.2 hm)
      rw [(lookupA_eq_none _ _).2 hk2]
  | some v =>
      have hmem : (k, v) ∈ f1.reverse := mem_of_lookupA _ _ _ hl
      have hmem2 : (k, v) ∈ f2.reverse := hrev.mem_iff.1 hmem
      rw [lookupA_of_mem_nodup _ _ _ hmem2 hnd2]

theorem generateRules_perm (f1 f2 : List (List Item × Nat)) (minConf : ℚ)
    (hperm : f1 ~ f2) (hnd : (f1.map Prod.fst).Nodup) :
    generateRules f1 minConf ~ generateRules f2 minConf := by
  have hsm : ∀ k, supportMapGet f1 k = supportMapGet f2 k := fun k =>
    supportMapGet_eq_of_perm f1 f2 hperm hnd k
  unfold generateRules
  simp only [hsm]
  exact hperm.flatMap_right _

/-- C8: two runs of the pipeline on the same transactions and parameters,
under any two faithful iteration orders (the only nondeterminism in the
program), produce the same multiset of `(itemset, support)` pairs and the
same multiset of rules — identical results up to reordering. -/
theorem remine_same_results
    (ord1 ord2 : List Item → List (Item × Nat) → List (Item × Nat))
    (hv1 : ∀ p l, ord1 p l ~ l) (hv2 : ∀ p l, ord2 p l ~ l)
    (fuel : Nat) (transactions : List (List Item)) (msFrac minConf : ℚ)
    (f1 : List (List Item × Nat)) (r1 : List (List Item × List Item × ℚ))
    (f2 : List (List Item × Nat)) (r2 : List (List Item × List Item × ℚ))
    (e1 : fpGrowthTop ord1 fuel transactions msFrac minConf = some (f1, r1))
    (e2 : fpGrowthTop ord2 fuel transactions msFrac minConf = some (f2, r2)) :
    f1 ~ f2 ∧ r1 ~ r2 := by
  simp only [fpGrowthTop] at e1 e2
  cases hb : build transactions (minCountOf msFrac transactions.length) with
  | none =>
      simp only [hb] at e1
      exact Option.noConfusion e1
  | some t =>
      simp only [hb] at e1 e2
      cases hm1 : mine ord1 fuel t (minCountOf msFrac transactions.length) with
      | none =>
          simp only [hm1] at e1
          exact Option.noConfusion e1
      | some fr1 =>
          cases hm2 : mine ord2 fuel t (minCountOf msFrac transactions.length) with
          | none =>
              simp only [hm2] at e2
              exact Option.noConfusion e2
          | some fr2 =>
              simp only [hm1] at e1
              simp only [hm2] at e2
              have he1 := Option.some.inj e1
              have he2 := Option.some.inj e2
              obtain ⟨hf1, hr1⟩ : fr1 = f1 ∧ generateRules fr1 minConf = r1 :=
                ⟨congrArg Prod.fst he1, congrArg Prod.snd he1⟩
              obtain ⟨hf2, hr2⟩ : fr2 = f2 ∧ generateRules fr2 minConf = r2 :=
                ⟨congrArg Prod.fst he2, congrArg Prod.snd he2⟩
              subst hf1
              subst hf2
              subst hr1
              subst hr2
              simp only [mine] at hm1 hm2
              have hfp : fr1 ~ fr2 :=
                fpGrowth_perm fuel ord1 ord2 hv1 hv2 _ [] t fr1 fr2 hm1 hm2
              have hhdnd : ((t.header.map Prod.fst).Nodup) := by
                simp only [build] at hb
                exact header_keys_nodup _ _ _ hb
              have hnd : ((fr1.map Prod.fst).Nodup) :=
                (fpGrowth_keys fuel ord1 hv1 _ [] t hhdnd fr1 hm1).2
              exact ⟨hfp, generateRules_perm fr1 fr2 minConf hfp hnd⟩

unseal Rat.mul Rat.inv Rat.add in
/-- Witness for C8: two concrete runs (canonical ascending order versus
reversed header order) on three transactions produce permuted — here even
equal — itemset and rule lists. -/
theorem remine_same_results_check :
    ([(['b'], 2), (['b', 'a'], 2), (['a'], 3)] : List (List Item × Nat)) ~
        [(['b'], 2), (['b', 'a'], 2), (['a'], 3)] ∧
    ([(['b'], ['a'], (1 : ℚ)), (['a'], ['b'], (2 : ℚ) / 3)] :
        List (List Item × List Item × ℚ)) ~
      [(['b'], ['a'], (1 : ℚ)), (['a'], ['b'], (2 : ℚ) / 3)] :=
  remine_same_results ordCanon (fun _ l => l.reverse)
    (fun _ l => List.perm_insertionSort _ l) (fun _ l => l.reverse_perm)
    6 [['a', 'b'], ['a', 'b'], ['a']] (1 / 2) (1 / 2)
    [(['b'], 2), (['b', 'a'], 2), (['a'], 3)]
    [(['b'], ['a'], (1 : ℚ)), (['a'], ['b'], (2 : ℚ) / 3)]
    [(['b'], 2), (['b', 'a'], 2), (['a'], 3)]
    [(['b'], ['a'], (1 : ℚ)), (['a'], ['b'], (2 : ℚ) / 3)]
    (by decide) (by decide)

end FPGrowth
